import Mathlib

/-!
Verification of the SquatLock-Data identity-resolution & merge engine.

This file gives a shallow embedding, in Lean 4, of the Python code in
`scripts/merge_catalogs.py` and `scripts/request_to_pending.py`:
the record normalizer (`normalize_app`), the four lookup indices
(`index_apps`), the identity resolver (`find_match`), the merge reducer
(`merge_one`), the per-file intake loop of `process_country`
(`process_file`), and the intake id synthesis (`slug`, `slugify_ascii`,
`decide_stable_id` with its md5 fallback).

Modelling conventions:
* Python strings are Lean `String`s.  The Python string primitives
  (`str.strip`, `str.lower`, `str.upper`, `str.lstrip`) and the regular
  expression classes `\w` and `\s` are modelled on the ASCII fragment:
  `\w` is `[A-Za-z0-9_]`, `\s` is `[ \t\n\r\x0b\x0c]`, `lower`/`upper`
  translate only `A-Z`/`a-z`.  On ASCII input these models agree exactly
  with CPython; non-ASCII letters (which CPython's `re.U` word class also
  matches) are treated as non-word characters.
* Python dicts keyed by strings are association lists with
  insert-or-replace (`dictSet`) resp. `setdefault(k, []).append(v)`
  (`dictPush`) update, which preserves CPython's insertion-order and
  last-write-wins semantics.
* The in-place mutation of catalog records (Python aliases the dict
  objects between `base` and the four indices) is modelled by making the
  indices store *positions* into the `base` list; merging writes through
  the position (`List.set`), which reproduces the aliasing behaviour,
  including the fact that a merge is visible through the stale index
  while newly added keys of the merged record are not indexed until the
  next rebuild.
* Fallible effects are explicit: a pending file is a `FileShape`
  (unparseable JSON, bare array, `{"apps": [...]}` wrapper, or any other
  top-level shape), a record inside a file is `Option RawApp` where
  `none` stands for a JSON value that is not an object (on which
  CPython's `dict(app or {})` raises and the per-file `except` clause
  triggers).
-/

/-! ## ASCII models of the Python string primitives -/

/-- Python `\s` (ASCII fragment): space, tab, newline, carriage return,
vertical tab, form feed. -/
def isPySpace (c : Char) : Bool :=
  c.toNat = 32 || c.toNat = 9 || c.toNat = 10 || c.toNat = 13 ||
  c.toNat = 11 || c.toNat = 12

/-- Strip leading and trailing whitespace from a character list
(Python `str.strip()`). -/
def stripChars (l : List Char) : List Char :=
  ((l.dropWhile isPySpace).reverse.dropWhile isPySpace).reverse

/-- Python `str.strip()`. -/
def pyStrip (s : String) : String := ⟨stripChars s.data⟩

/-- Python `str.lower()` (ASCII fragment): `Char.toLower` maps `A-Z`. -/
def pyLower (s : String) : String := ⟨s.data.map Char.toLower⟩

/-- Python `str.upper()` (ASCII fragment). -/
def pyUpper (s : String) : String := ⟨s.data.map Char.toUpper⟩

theorem char_ofNat_toNat (n : Nat) (h : n < 55296) : (Char.ofNat n).toNat = n := by
  have hv : n.isValidChar := Or.inl h
  simp [Char.ofNat, hv, Char.toNat, Char.ofNatAux, UInt32.toNat, BitVec.toNat_ofNatLt]

theorem char_toLower_toLower (c : Char) : c.toLower.toLower = c.toLower := by
  unfold Char.toLower
  by_cases h : c.toNat ≥ 65 ∧ c.toNat ≤ 90
  · rw [if_pos h, if_neg (by rw [char_ofNat_toNat _ (by omega)]; omega)]
  · rw [if_neg h, if_neg h]

theorem isPySpace_toLower (c : Char) : isPySpace c.toLower = isPySpace c := by
  unfold Char.toLower
  by_cases h : c.toNat ≥ 65 ∧ c.toNat ≤ 90
  · rw [if_pos h]
    have hv := char_ofNat_toNat (c.toNat + 32) (by omega)
    have h1 : isPySpace (Char.ofNat (c.toNat + 32)) = false := by
      simp only [isPySpace, hv, Bool.or_eq_false_iff, decide_eq_false_iff_not]
      omega
    have h2 : isPySpace c = false := by
      simp only [isPySpace, Bool.or_eq_false_iff, decide_eq_false_iff_not]
      omega
    rw [h1, h2]
  · rw [if_neg h]

theorem dropWhile_head_not {α : Type} (p : α → Bool) (l : List α) :
    ∀ b ∈ (l.dropWhile p).head?, p b = false := by
  induction l with
  | nil => simp [List.dropWhile]
  | cons a l ih =>
    by_cases h : p a
    · simpa [List.dropWhile, h] using ih
    · simp [List.dropWhile, h]

theorem dropWhile_eq_self_of_not {α : Type} (p : α → Bool) (l : List α)
    (h : ∀ b ∈ l, p b = false) : l.dropWhile p = l := by
  cases l with
  | nil => rfl
  | cons a l => simp [List.dropWhile, h a (by simp)]

theorem mem_dropWhile {α : Type} (p : α → Bool) (l : List α) :
    ∀ b ∈ l.dropWhile p, b ∈ l := by
  induction l with
  | nil => simp [List.dropWhile]
  | cons a l ih =>
    by_cases h : p a
    · intro b hb
      exact List.mem_cons_of_mem a (ih b (by simpa [List.dropWhile, h] using hb))
    · intro b hb
      simpa [List.dropWhile, h] using hb

theorem mem_stripChars (l : List Char) : ∀ c ∈ stripChars l, c ∈ l := by
  intro c hc
  unfold stripChars at hc
  rw [List.mem_reverse] at hc
  have := mem_dropWhile _ _ _ hc
  rw [List.mem_reverse] at this
  exact mem_dropWhile _ _ _ this

theorem dropWhile_eq_self_of_head {α : Type} (p : α → Bool) (l : List α)
    (h : ∀ b ∈ l.head?, p b = false) : l.dropWhile p = l := by
  cases l with
  | nil => rfl
  | cons a l => simp [List.dropWhile, h a (by simp)]

theorem dropWhile_getLastq {α : Type} (p : α → Bool) (l : List α)
    (h : l.dropWhile p ≠ []) : (l.dropWhile p).getLast? = l.getLast? := by
  induction l with
  | nil => simp [List.dropWhile] at h
  | cons a l ih =>
    by_cases hp : p a
    · have h' : l.dropWhile p ≠ [] := by simpa [List.dropWhile, hp] using h
      have hl : l ≠ [] := by rintro rfl; simp [List.dropWhile] at h'
      rw [show (a :: l).dropWhile p = l.dropWhile p by simp [List.dropWhile, hp]]
      rw [ih h']
      obtain ⟨b, l', rfl⟩ := List.exists_cons_of_ne_nil hl
      rw [List.getLast?_cons_cons]
    · simp [List.dropWhile, hp]

theorem dropWhile_eq_nil_forall {α : Type} (p : α → Bool) (l : List α)
    (h : l.dropWhile p = []) : ∀ b ∈ l, p b = true := by
  induction l with
  | nil => simp
  | cons a l ih =>
    by_cases hp : p a
    · have h' : l.dropWhile p = [] := by simpa [List.dropWhile, hp] using h
      intro b hb
      rcases List.mem_cons.mp hb with rfl | hb
      · exact hp
      · exact ih h' b hb
    · simp [List.dropWhile, hp] at h

theorem stripChars_headq_not (l : List Char) :
    ∀ c ∈ (stripChars l).head?, isPySpace c = false := by
  intro c hc
  unfold stripChars at hc
  rw [List.head?_reverse] at hc
  by_cases hB : (l.dropWhile isPySpace).reverse.dropWhile isPySpace = []
  · rw [hB] at hc; simp at hc
  · rw [dropWhile_getLastq _ _ hB, List.getLast?_reverse] at hc
    exact dropWhile_head_not _ _ c hc

theorem stripChars_getLastq_not (l : List Char) :
    ∀ c ∈ (stripChars l).getLast?, isPySpace c = false := by
  intro c hc
  unfold stripChars at hc
  rw [List.getLast?_reverse] at hc
  exact dropWhile_head_not _ _ c hc

theorem stripChars_idem (l : List Char) :
    stripChars (stripChars l) = stripChars l := by
  have h1 : (stripChars l).dropWhile isPySpace = stripChars l :=
    dropWhile_eq_self_of_head _ _ (stripChars_headq_not l)
  show (((stripChars l).dropWhile isPySpace).reverse.dropWhile isPySpace).reverse = stripChars l
  rw [h1]
  have h2 : (stripChars l).reverse.dropWhile isPySpace = (stripChars l).reverse := by
    apply dropWhile_eq_self_of_head
    intro c hc
    rw [List.head?_reverse] at hc
    exact stripChars_getLastq_not l c hc
  rw [h2, List.reverse_reverse]

theorem stripChars_eq_nil_forall (l : List Char) (h : stripChars l = []) :
    ∀ c ∈ l, isPySpace c = true := by
  unfold stripChars at h
  rw [List.reverse_eq_nil_iff] at h
  by_cases hA : l.dropWhile isPySpace = []
  · exact dropWhile_eq_nil_forall _ _ hA
  · exfalso
    have hall := dropWhile_eq_nil_forall _ _ h
    obtain ⟨c, hc⟩ := List.exists_mem_of_ne_nil _ hA
    have hc' : c ∈ (l.dropWhile isPySpace).reverse := List.mem_reverse.mpr hc
    -- every element of dropWhile's result's reverse is whitespace, in
    -- particular the head of the dropWhile result, contradiction
    have hhead := dropWhile_head_not isPySpace l
    obtain ⟨b, l', hbl⟩ := List.exists_cons_of_ne_nil hA
    have hb : isPySpace b = false := hhead b (by rw [hbl]; rfl)
    have hbmem : b ∈ (l.dropWhile isPySpace).reverse := by
      rw [hbl]; simp
    have := hall b hbmem
    rw [this] at hb
    simp at hb

theorem dropWhile_map_of_pred {p : Char → Bool} {f : Char → Char}
    (hf : ∀ c, p (f c) = p c) (l : List Char) :
    (l.map f).dropWhile p = (l.dropWhile p).map f := by
  induction l with
  | nil => rfl
  | cons a l ih =>
    by_cases hp : p a
    · simp [List.dropWhile, hf, hp, ih]
    · simp [List.dropWhile, hf, hp]

theorem stripChars_map_toLower (l : List Char) :
    stripChars (l.map Char.toLower) = (stripChars l).map Char.toLower := by
  unfold stripChars
  rw [dropWhile_map_of_pred isPySpace_toLower, ← List.map_reverse,
    dropWhile_map_of_pred isPySpace_toLower, ← List.map_reverse]

theorem pyStrip_idem (s : String) : pyStrip (pyStrip s) = pyStrip s := by
  show (⟨stripChars (stripChars s.data)⟩ : String) = ⟨stripChars s.data⟩
  rw [stripChars_idem]

theorem pyStrip_pyLower (s : String) : pyStrip (pyLower s) = pyLower (pyStrip s) := by
  show (⟨stripChars (s.data.map Char.toLower)⟩ : String) = ⟨(stripChars s.data).map Char.toLower⟩
  rw [stripChars_map_toLower]

theorem pyLower_idem (s : String) : pyLower (pyLower s) = pyLower s := by
  show (⟨(s.data.map Char.toLower).map Char.toLower⟩ : String) = ⟨s.data.map Char.toLower⟩
  rw [List.map_map]
  congr 1
  exact List.map_congr_left fun c _ => char_toLower_toLower c

/-- A string is in stripped form when Python `strip()` leaves it unchanged. -/
def IsStripped (s : String) : Prop := pyStrip s = s

theorem isStripped_pyStrip (s : String) : IsStripped (pyStrip s) := pyStrip_idem s

/-! ## The `uniq` helper of `merge_catalogs.py`

Python source (lines 26-35, identical in merge_catalog_jp.py): iterate
the sequence, key each string by `x.strip()`, skip falsy keys, and on
the first occurrence of a key append the *stripped key* itself
(`out.append(k)`), so every element of the output is stripped.  The
`seen` set is modelled as the list of keys already taken. -/

def uniqAux : List String → List String → List String
  | [], _ => []
  | x :: xs, seen =>
    if pyStrip x = "" then uniqAux xs seen
    else if pyStrip x ∈ seen then uniqAux xs seen
    else pyStrip x :: uniqAux xs (pyStrip x :: seen)

def uniq (l : List String) : List String := uniqAux l []

/-- The `seen` set after `uniqAux` has consumed `l`. -/
def seenAfter : List String → List String → List String
  | [], seen => seen
  | x :: xs, seen =>
    seenAfter xs (if pyStrip x = "" ∨ pyStrip x ∈ seen then seen else pyStrip x :: seen)

theorem uniqAux_append (l₁ l₂ : List String) (seen : List String) :
    uniqAux (l₁ ++ l₂) seen = uniqAux l₁ seen ++ uniqAux l₂ (seenAfter l₁ seen) := by
  induction l₁ generalizing seen with
  | nil => simp [uniqAux, seenAfter]
  | cons x xs ih =>
    by_cases h0 : pyStrip x = ""
    · simp [uniqAux, seenAfter, h0, ih]
    · by_cases h1 : pyStrip x ∈ seen
      · simp [uniqAux, seenAfter, h0, h1, ih]
      · simp [uniqAux, seenAfter, h0, h1, ih]

theorem mem_seenAfter (l : List String) (seen : List String) (k : String) :
    k ∈ seenAfter l seen ↔ k ∈ seen ∨ (k ≠ "" ∧ ∃ x ∈ l, pyStrip x = k) := by
  induction l generalizing seen with
  | nil => simp [seenAfter]
  | cons x xs ih =>
    by_cases h0 : pyStrip x = "" ∨ pyStrip x ∈ seen
    · rw [seenAfter, if_pos h0, ih]
      constructor
      · rintro (hk | ⟨hne, y, hy, hky⟩)
        · exact Or.inl hk
        · exact Or.inr ⟨hne, y, List.mem_cons_of_mem _ hy, hky⟩
      · rintro (hk | ⟨hne, y, hy, hky⟩)
        · exact Or.inl hk
        · rcases List.mem_cons.mp hy with rfl | hy
          · rcases h0 with h0 | h0
            · exact absurd (hky ▸ h0) hne
            · exact Or.inl (hky ▸ h0)
          · exact Or.inr ⟨hne, y, hy, hky⟩
    · push_neg at h0
      rw [seenAfter, if_neg (by tauto), ih]
      constructor
      · rintro (hk | ⟨hne, y, hy, hky⟩)
        · rcases List.mem_cons.mp hk with rfl | hk
          · exact Or.inr ⟨h0.1, x, by simp⟩
          · exact Or.inl hk
        · exact Or.inr ⟨hne, y, List.mem_cons_of_mem _ hy, hky⟩
      · rintro (hk | ⟨hne, y, hy, hky⟩)
        · exact Or.inl (List.mem_cons_of_mem _ hk)
        · rcases List.mem_cons.mp hy with rfl | hy
          · exact Or.inl (hky ▸ List.mem_cons_self _ _)
          · exact Or.inr ⟨hne, y, hy, hky⟩

theorem uniqAux_eq_nil (l : List String) (seen : List String)
    (h : ∀ x ∈ l, pyStrip x = "" ∨ pyStrip x ∈ seen) : uniqAux l seen = [] := by
  induction l with
  | nil => rfl
  | cons x xs ih =>
    rcases h x (List.mem_cons_self _ _) with h0 | h1
    · rw [uniqAux, if_pos h0]
      exact ih fun y hy => h y (List.mem_cons_of_mem _ hy)
    · rw [uniqAux]
      by_cases h0 : pyStrip x = ""
      · rw [if_pos h0]
        exact ih fun y hy => h y (List.mem_cons_of_mem _ hy)
      · rw [if_neg h0, if_pos h1]
        exact ih fun y hy => h y (List.mem_cons_of_mem _ hy)

theorem mem_uniqAux_strip {l seen : List String} {x : String}
    (h : x ∈ uniqAux l seen) : ∃ y ∈ l, x = pyStrip y := by
  induction l generalizing seen with
  | nil => simp [uniqAux] at h
  | cons y ys ih =>
    rw [uniqAux] at h
    split at h
    · obtain ⟨z, hz, hxz⟩ := ih h
      exact ⟨z, List.mem_cons_of_mem _ hz, hxz⟩
    · split at h
      · obtain ⟨z, hz, hxz⟩ := ih h
        exact ⟨z, List.mem_cons_of_mem _ hz, hxz⟩
      · rcases List.mem_cons.mp h with rfl | h
        · exact ⟨y, List.mem_cons_self _ _, rfl⟩
        · obtain ⟨z, hz, hxz⟩ := ih h
          exact ⟨z, List.mem_cons_of_mem _ hz, hxz⟩

theorem uniq_mem_strip {l : List String} {x : String} (h : x ∈ uniq l) :
    ∃ y ∈ l, x = pyStrip y :=
  mem_uniqAux_strip h

/-- Every element of a `uniq` output is a stripped string, because the
code appends `k = x.strip()`, never `x` itself. -/
theorem uniq_elem_stripped {l : List String} : ∀ x ∈ uniq l, IsStripped x := by
  intro x hx
  obtain ⟨y, _, rfl⟩ := uniq_mem_strip hx
  exact pyStrip_idem y

theorem uniqAux_key_not_seen {l seen : List String} {x : String}
    (h : x ∈ uniqAux l seen) : pyStrip x ≠ "" ∧ pyStrip x ∉ seen := by
  induction l generalizing seen with
  | nil => simp [uniqAux] at h
  | cons y ys ih =>
    rw [uniqAux] at h
    split at h
    · exact ih h
    · split at h
      · exact ih h
      · rcases List.mem_cons.mp h with rfl | h
        · rw [pyStrip_idem]
          constructor
          · assumption
          · assumption
        · rcases ih h with ⟨h1, h2⟩
          exact ⟨h1, fun hc => h2 (List.mem_cons_of_mem _ hc)⟩

theorem uniqAux_pairwise (l seen : List String) :
    (uniqAux l seen).Pairwise (fun a b => pyStrip a ≠ pyStrip b) := by
  induction l generalizing seen with
  | nil => exact List.Pairwise.nil
  | cons y ys ih =>
    rw [uniqAux]
    split
    · exact ih _
    · split
      · exact ih _
      · refine List.Pairwise.cons (fun b hb => ?_) (ih _)
        have h2 := (uniqAux_key_not_seen hb).2
        rw [pyStrip_idem]
        intro hc
        exact h2 (hc ▸ List.mem_cons_self _ _)

theorem uniqAux_eq_self : ∀ (l : List String) (seen : List String),
    (∀ x ∈ l, IsStripped x) →
    (∀ x ∈ l, pyStrip x ≠ "" ∧ pyStrip x ∉ seen) →
    l.Pairwise (fun a b => pyStrip a ≠ pyStrip b) →
    uniqAux l seen = l := by
  intro l
  induction l with
  | nil => intro seen _ _ _; rfl
  | cons x xs ih =>
    intro seen h0 h1 h2
    rcases h1 x (List.mem_cons_self _ _) with ⟨hx1, hx2⟩
    rw [uniqAux, if_neg hx1, if_neg hx2, h0 x (List.mem_cons_self _ _)]
    congr 1
    rcases List.pairwise_cons.mp h2 with ⟨hx3, h2'⟩
    refine ih _ (fun y hy => h0 y (List.mem_cons_of_mem _ hy)) (fun y hy => ?_) h2'
    rcases h1 y (List.mem_cons_of_mem _ hy) with ⟨hy1, hy2⟩
    refine ⟨hy1, fun hc => ?_⟩
    rcases List.mem_cons.mp hc with hc | hc
    · exact hx3 y hy ((h0 x (List.mem_cons_self _ _)).trans hc.symm)
    · exact hy2 hc

theorem uniq_uniq (l : List String) : uniq (uniq l) = uniq l :=
  uniqAux_eq_self (uniq l) [] uniq_elem_stripped
    (fun x hx => ⟨(uniqAux_key_not_seen hx).1, by simp⟩)
    (uniqAux_pairwise l [])

/-- Every nonempty-keyed element of the input is represented in the output
of `uniq`, up to `strip()`-equality of keys. -/
theorem uniqAux_key_rep {l seen : List String} {y : String}
    (hy : y ∈ l) (hk : pyStrip y ≠ "") :
    pyStrip y ∈ seen ∨ ∃ x ∈ uniqAux l seen, pyStrip x = pyStrip y := by
  induction l generalizing seen with
  | nil => simp at hy
  | cons z zs ih =>
    rw [uniqAux]
    rcases List.mem_cons.mp hy with rfl | hy
    · rw [if_neg hk]
      by_cases h1 : pyStrip y ∈ seen
      · exact Or.inl h1
      · rw [if_neg h1]
        exact Or.inr ⟨pyStrip y, List.mem_cons_self _ _, pyStrip_idem y⟩
    · by_cases h0 : pyStrip z = ""
      · rw [if_pos h0]; exact ih hy
      · by_cases h1 : pyStrip z ∈ seen
        · rw [if_neg h0, if_pos h1]; exact ih hy
        · rw [if_neg h0, if_neg h1]
          rcases @ih (pyStrip z :: seen) hy with h | ⟨x, hx, hxy⟩
          · rcases List.mem_cons.mp h with h | h
            · exact Or.inr ⟨pyStrip z, List.mem_cons_self _ _, (pyStrip_idem z).trans h.symm⟩
            · exact Or.inl h
          · exact Or.inr ⟨x, List.mem_cons_of_mem _ hx, hxy⟩

theorem uniq_key_rep {l : List String} {y : String} (hy : y ∈ l)
    (hk : pyStrip y ≠ "") : ∃ x ∈ uniq l, pyStrip x = pyStrip y := by
  rcases @uniqAux_key_rep l [] y hy hk with h | h
  · simp at h
  · exact h

/-- The central idempotence property: re-appending elements whose keys are
already represented in `l` and re-running `uniq` changes nothing. -/
theorem uniq_append_absorb (l s : List String)
    (h : ∀ x ∈ s, pyStrip x = "" ∨ ∃ y ∈ l, pyStrip y = pyStrip x) :
    uniq (uniq l ++ s) = uniq l := by
  rw [uniq, uniqAux_append]
  have h1 : uniqAux (uniq l) [] = uniq l := uniq_uniq l
  have h2 : uniqAux s (seenAfter (uniq l) []) = [] := by
    apply uniqAux_eq_nil
    intro x hx
    by_cases h0 : pyStrip x = ""
    · exact Or.inl h0
    · refine Or.inr ?_
      rw [mem_seenAfter]
      rcases h x hx with h0' | ⟨y, hy, hky⟩
      · exact absurd h0' h0
      · obtain ⟨z, hz, hzy⟩ := uniq_key_rep hy (hky ▸ h0)
        exact Or.inr ⟨h0, z, hz, hzy.trans hky⟩
  rw [h1, h2, List.append_nil]

theorem uniq_double_append (d s : List String) :
    uniq (uniq (d ++ s) ++ s) = uniq (d ++ s) :=
  uniq_append_absorb _ _ fun x hx =>
    Or.inr ⟨x, List.mem_append_right d hx, rfl⟩

/-! ## Regex helpers used by `slug` (ASCII models)

`slug` (merge_catalogs.py lines 16-19):
`re.sub(r"[^\w\s-]", "", s)` then `.strip().lower()`, then
`re.sub(r"[\s_-]+", "-", s)`, then `s[:64] or "app"`. -/

/-- Python `\w` (ASCII fragment): `[A-Za-z0-9_]`. -/
def isWordChar (c : Char) : Bool := c.isAlphanum || c == '_'

/-- Characters kept by `re.sub(r"[^\w\s-]", "", s)`. -/
def slugKeep (c : Char) : Bool := isWordChar c || isPySpace c || c == '-'

/-- Characters in the class `[\s_-]`. -/
def isSepChar (c : Char) : Bool := isPySpace c || c == '_' || c == '-'

/-- Collapse every run of `[\s_-]` characters into one `-`
(`re.sub(r"[\s_-]+", "-", s)`).  The boolean records whether the previous
character was part of a separator run. -/
def collapseSepAux : Bool → List Char → List Char
  | _, [] => []
  | inRun, c :: cs =>
    if isSepChar c then
      if inRun then collapseSepAux true cs else '-' :: collapseSepAux true cs
    else c :: collapseSepAux false cs

def collapseSepChars (l : List Char) : List Char := collapseSepAux false l

/-- `slug` of merge_catalogs.py: filesystem-safe slug with the constant
fallback `"app"` for an empty result. -/
def slug (s : String) : String :=
  let s1 : String := ⟨s.data.filter slugKeep⟩
  let s2 := pyLower (pyStrip s1)
  let s3 : String := ⟨collapseSepChars s2.data⟩
  let s4 : String := ⟨s3.data.take 64⟩
  if s4 = "" then "app" else s4

/-! ## `host_from_url` (merge_catalogs.py lines 37-42)

`urlparse(u).netloc` is modelled by the standard-library algorithm: split
off a leading `scheme:` when the text before the first colon is a valid
scheme, then read a netloc only after a leading `//`, up to the first
`/`, `?` or `#`.  The code then lowercases, strips, and applies
`h.lstrip("www.")` — CPython's `lstrip` removes leading characters drawn
from the *set* `{'w', '.'}`, not the prefix `"www."`. -/

def isSchemeChar (c : Char) : Bool := c.isAlpha || c.isDigit || c == '+' || c == '-' || c == '.'

/-- Drop a leading `scheme:` as `urllib.parse.urlsplit` does. -/
def splitScheme (u : String) : String :=
  match u.data.findIdx? (· == ':') with
  | some i =>
    if 0 < i ∧ (u.data.headD ' ').isAlpha = true ∧ (u.data.take i).all isSchemeChar = true then
      ⟨u.data.drop (i + 1)⟩
    else u
  | none => u

/-- `urlparse(u).netloc`. -/
def netlocOf (u : String) : String :=
  match (splitScheme u).data with
  | '/' :: '/' :: r => ⟨r.takeWhile (fun c => !(c == '/' || c == '?' || c == '#'))⟩
  | _ => ""

/-- `host_from_url` of merge_catalogs.py (same code in merge_catalog_jp.py):
`h = urlparse(u).netloc.lower().strip(); return h.lstrip("www.") if h else ""`. -/
def host_from_url (u : String) : String :=
  let h := pyStrip (pyLower (netlocOf u))
  if h = "" then "" else ⟨h.data.dropWhile (fun c => c == 'w' || c == '.')⟩

/-! ## Data model -/

/-- Provenance object.  The Python code reads and writes only the keys
`"via"` and `"country"`; the empty string models a missing/falsy value
(every access is `src.get(...)` followed by a truthiness test). -/
structure Source where
  via : String := ""
  country : String := ""
deriving DecidableEq, Repr

/-- A normalized catalog record (the dict shape `normalize_app` outputs). -/
structure AppRecord where
  id : String := ""
  name : String := ""
  symbol : String := ""
  schemes : List String := []
  universalLinks : List String := []
  webHosts : List String := []
  aliases : List String := []
  categories : List String := []
  source : Source := {}
deriving DecidableEq, Repr

attribute [ext] Source AppRecord

/-- A JSON value in a position the code passes through `ensure_list`:
absent/null, a bare string, some other scalar, or a list whose entries
are strings (`some s`) or non-strings (`none`). -/
inductive PyList where
  | absent
  | scalarStr (s : String)
  | scalarOther
  | items (l : List (Option String))
deriving DecidableEq, Repr

/-- `ensure_list` of merge_catalogs.py lines 21-24: `None` becomes `[]`,
a list stays, any other value is wrapped in a singleton list. -/
def ensure_list : PyList → List (Option String)
  | .absent => []
  | .scalarStr s => [some s]
  | .scalarOther => [none]
  | .items l => l

/-- The strings of an `ensure_list` result (the `if isinstance(x, str)`
filter used in every list comprehension of `normalize_app`). -/
def strEntries (f : PyList) : List String := (ensure_list f).filterMap id

/-- A raw input record (a JSON object).  Scalar fields model
`a.get(k) or ""` — the empty string stands for a missing or falsy value;
records whose scalar fields hold non-string JSON values (on which
`.strip()` would raise) are outside the model. -/
structure RawApp where
  id : String := ""
  name : String := ""
  symbol : String := ""
  schemes : PyList := .absent
  universalLinks : PyList := .absent
  webHosts : PyList := .absent
  aliases : PyList := .absent
  categories : PyList := .absent
  sourceVia : String := ""
  sourceCountry : String := ""
deriving DecidableEq, Repr

/-! ## Normalizer (`normalize_app`, merge_catalogs.py lines 61-81) -/

def normalize_app (app : RawApp) (cc : String) : AppRecord :=
  let id0 := pyStrip app.id
  let name := pyStrip app.name
  let symbol := pyStrip (if app.symbol = "" then "app.fill" else app.symbol)
  let schemes := uniq ((strEntries app.schemes).map pyStrip)
  let universalLinks := uniq ((strEntries app.universalLinks).map pyStrip)
  let webHosts0 := uniq ((strEntries app.webHosts).map (fun h => pyLower (pyStrip h)))
  let ul_hosts := universalLinks.map host_from_url
  let webHosts := uniq (webHosts0 ++ ul_hosts.filter (fun h => h != ""))
  let aliases0 := uniq ((strEntries app.aliases).map pyStrip)
  let aliases := if name ≠ "" ∧ name ∉ aliases0 then aliases0 ++ [name] else aliases0
  let categories := uniq ((strEntries app.categories).map (fun c => pyLower (pyStrip c)))
  let via := if app.sourceVia = "" then "manus" else app.sourceVia
  let country := if app.sourceCountry = "" then pyUpper cc else app.sourceCountry
  let id := if id0 = "" then
      slug (if name ≠ "" then name else (match webHosts with | h :: _ => h | [] => "app"))
    else id0
  { id := id, name := name, symbol := symbol, schemes := schemes,
    universalLinks := universalLinks, webHosts := webHosts, aliases := aliases,
    categories := categories, source := { via := via, country := country } }

/-! ## Merge reducer (`merge_one`, merge_catalogs.py lines 111-120) -/

def merge_one (dst src : AppRecord) : AppRecord :=
  { dst with
    schemes := uniq (dst.schemes ++ src.schemes),
    universalLinks := uniq (dst.universalLinks ++ src.universalLinks),
    webHosts := uniq (dst.webHosts ++ src.webHosts),
    aliases := uniq (dst.aliases ++ src.aliases),
    categories := uniq (dst.categories ++ src.categories),
    symbol := if dst.symbol = "" then (if src.symbol = "" then "app.fill" else src.symbol)
      else dst.symbol,
    source := {
      via := if dst.source.via ≠ "manus" ∧ src.source.via = "manus" then "manus"
        else dst.source.via,
      country := if dst.source.country = "" ∧ src.source.country ≠ "" then src.source.country
        else dst.source.country } }

/-! ## Identity resolver (`index_apps` and `find_match`)

The four indices map lookup keys to *positions* in the `base` list; this
models CPython's object aliasing (the dict stores references to the very
record objects held by `base`, so an in-place merge is visible through
the index without a rebuild). -/

/-- Python `d[k] = v` on a string-keyed dict held as an association list:
replace in place, else append. -/
def dictSet (d : List (String × Nat)) (k : String) (v : Nat) : List (String × Nat) :=
  match d with
  | [] => [(k, v)]
  | (k', v') :: rest => if k' = k then (k, v) :: rest else (k', v') :: dictSet rest k v

/-- Python `d.setdefault(k, []).append(v)`. -/
def dictPush (d : List (String × List Nat)) (k : String) (v : Nat) : List (String × List Nat) :=
  match d with
  | [] => [(k, [v])]
  | (k', vs) :: rest =>
    if k' = k then (k, vs ++ [v]) :: rest else (k', vs) :: dictPush rest k v

structure Index where
  by_id : List (String × Nat) := []
  by_name : List (String × List Nat) := []
  by_alias : List (String × List Nat) := []
  by_host : List (String × List Nat) := []
deriving DecidableEq, Repr

/-- One turn of the `for al in a.get("aliases", [])` loop of `index_apps`. -/
def aliasInsert (i : Nat) (ix : Index) (al : String) : Index :=
  if pyLower (pyStrip al) ≠ "" then
    { ix with by_alias := dictPush ix.by_alias (pyLower (pyStrip al)) i }
  else ix

/-- One turn of the `for h in a.get("webHosts", [])` loop of `index_apps`. -/
def hostInsert (i : Nat) (ix : Index) (h : String) : Index :=
  if pyLower (pyStrip h) ≠ "" then
    { ix with by_host := dictPush ix.by_host (pyLower (pyStrip h)) i }
  else ix

/-- Index one record (at position `i` of the base list):
body of the `for a in apps` loop in `index_apps`. -/
def index_one (i : Nat) (a : AppRecord) (idx : Index) : Index :=
  let idx1 := if a.id ≠ "" then { idx with by_id := dictSet idx.by_id a.id i } else idx
  let nm := pyLower (pyStrip a.name)
  let idx2 := if nm ≠ "" then { idx1 with by_name := dictPush idx1.by_name nm i } else idx1
  a.webHosts.foldl (hostInsert i) (a.aliases.foldl (aliasInsert i) idx2)

def index_from : Nat → List AppRecord → Index → Index
  | _, [], idx => idx
  | i, a :: rest, idx => index_from (i + 1) rest (index_one i a idx)

/-- `index_apps` of merge_catalogs.py lines 83-96. -/
def index_apps (apps : List AppRecord) : Index := index_from 0 apps {}

/-- First hit of the `for al in ...`/`for h in ...` loops of `find_match`:
lowercase each key and return the first indexed entry's first position. -/
def firstHit (d : List (String × List Nat)) : List String → Option Nat
  | [] => none
  | k :: ks =>
    match d.lookup (pyLower k) with
    | some (i :: _) => some i
    | _ => firstHit d ks

/-- `find_match` of merge_catalogs.py lines 98-109.  The `some []` index
entries are unreachable (`dictPush` only stores nonempty lists); they are
treated as a miss. -/
def find_match (a : AppRecord) (idx : Index) : Option Nat :=
  match (if a.id ≠ "" then idx.by_id.lookup a.id else none) with
  | some i => some i
  | none =>
    match idx.by_name.lookup (pyLower a.name) with
    | some (i :: _) => some i
    | _ =>
      match firstHit idx.by_alias a.aliases with
      | some i => some i
      | none => firstHit idx.by_host a.webHosts

/-! ## Intake orchestrator (`process_country`, merge_catalogs.py lines 123-171) -/

def dfltApp : AppRecord := {}

/-- The in-memory state of one region: the `base` list and the index. -/
abbrev CatState := List AppRecord × Index

/-- Fold one normalized draft into the state: on a match, merge in place
through the matched position (the index is *not* rebuilt — CPython's
aliasing makes the merge visible anyway); on a miss, append and rebuild. -/
def apply_draft (st : CatState) (na : AppRecord) : CatState × Bool :=
  match find_match na st.2 with
  | some i => ((st.1.set i (merge_one (st.1.getD i dfltApp) na), st.2), true)
  | none =>
    let base := st.1 ++ [na]
    ((base, index_apps base), false)

/-- Body of the `for a in apps or []` loop: normalize, resolve, fold. -/
def step (cc : String) (st : CatState) (a : RawApp) : CatState × Bool :=
  apply_draft st (normalize_app a cc)

/-- The top-level JSON shape of one pending file. -/
inductive FileShape where
  | malformed
  | arr (apps : List (Option RawApp))
  | objWithApps (apps : List (Option RawApp))
  | otherShape
deriving Repr

/-- `load_json` of merge_catalogs.py lines 44-54: a missing or unparseable
file yields `[]` (the `except (json.JSONDecodeError, IOError)` clause), a
`{"apps": ...}` wrapper is unwrapped, any other non-list shape yields `[]`.
A record is `Option RawApp`; `none` marks a JSON value that is not an
object. -/
def load_json : FileShape → List (Option RawApp)
  | .malformed => []
  | .arr l => l
  | .objWithApps l => l
  | .otherShape => []

/-- Run the record loop of `process_country` over one file's records.
A `none` record makes `normalize_app`'s `dict(app or {})` raise, so the
loop stops, the remaining records are skipped and the flag is `false`
(the per-file `except` clause fires); state changes made by earlier
records persist.  Returns the state and whether the loop completed. -/
def run_records (cc : String) : CatState → List (Option RawApp) → CatState × Bool
  | st, [] => (st, true)
  | st, some a :: rest => run_records cc (step cc st a).1 rest
  | st, none :: _ => (st, false)

/-- One iteration of the `for p in inbox_files` loop: load, fold records,
and on success move the file to the processed area (`moved = true`);
on an exception log `"[ERROR] <name>"` and leave the file in place.
The exception text is elided from the log entry model. -/
def process_file (fname cc : String) (st : CatState) (fd : FileShape) :
    CatState × Bool × List String :=
  match run_records cc st (load_json fd) with
  | (st', true) => (st', true, [])
  | (st', false) => (st', false, ["[ERROR] " ++ fname])

/-- The whole per-region file loop: returns the final state, the names of
the files moved to the processed area, and the accumulated error log. -/
def process_files (cc : String) (st : CatState) :
    List (String × FileShape) → CatState × List String × List String
  | [] => (st, [], [])
  | (n, fd) :: rest =>
    match process_file n cc st fd with
    | (st', mv, errs) =>
      let r := process_files cc st' rest
      (r.1, (if mv then [n] else []) ++ r.2.1, errs ++ r.2.2)

/-! ## Projection lemmas for `merge_one` -/

theorem merge_one_id (d s : AppRecord) : (merge_one d s).id = d.id := rfl

theorem merge_one_name (d s : AppRecord) : (merge_one d s).name = d.name := rfl

theorem merge_one_symbol (d s : AppRecord) :
    (merge_one d s).symbol =
      (if d.symbol = "" then (if s.symbol = "" then "app.fill" else s.symbol)
        else d.symbol) := rfl

theorem merge_one_schemes (d s : AppRecord) :
    (merge_one d s).schemes = uniq (d.schemes ++ s.schemes) := rfl

theorem merge_one_universalLinks (d s : AppRecord) :
    (merge_one d s).universalLinks = uniq (d.universalLinks ++ s.universalLinks) := rfl

theorem merge_one_webHosts (d s : AppRecord) :
    (merge_one d s).webHosts = uniq (d.webHosts ++ s.webHosts) := rfl

theorem merge_one_aliases (d s : AppRecord) :
    (merge_one d s).aliases = uniq (d.aliases ++ s.aliases) := rfl

theorem merge_one_categories (d s : AppRecord) :
    (merge_one d s).categories = uniq (d.categories ++ s.categories) := rfl

theorem merge_one_via (d s : AppRecord) :
    (merge_one d s).source.via =
      (if d.source.via ≠ "manus" ∧ s.source.via = "manus" then "manus"
        else d.source.via) := rfl

theorem merge_one_country (d s : AppRecord) :
    (merge_one d s).source.country =
      (if d.source.country = "" ∧ s.source.country ≠ "" then s.source.country
        else d.source.country) := rfl

theorem merge_one_symbol_ne (d s : AppRecord) : (merge_one d s).symbol ≠ "" := by
  rw [merge_one_symbol]
  by_cases h1 : d.symbol = ""
  · by_cases h2 : s.symbol = "" <;> simp [h1, h2]
  · simp [h1]

/-- C9: merging never changes an existing record's identity — for every
existing record `d` and matched draft `s`, `merge_one d s` has the same
`id` field as `d`, so ids assigned in one run remain stable across later
runs that merge further drafts into the record. -/
theorem C9_merge_preserves_id (d s : AppRecord) : (merge_one d s).id = d.id := rfl

/-- C2: the merge operation is idempotent — re-applying the same draft
`s` to `merge_one d s` yields exactly `merge_one d s`: no set field gains
a member, and name, symbol and source are unchanged. -/
theorem C2_merge_idempotent (d s : AppRecord) :
    merge_one (merge_one d s) s = merge_one d s := by
  have hsym := merge_one_symbol_ne d s
  apply AppRecord.ext
  · rfl
  · rfl
  · rw [merge_one_symbol (merge_one d s) s, if_neg hsym]
  · exact uniq_double_append _ _
  · exact uniq_double_append _ _
  · exact uniq_double_append _ _
  · exact uniq_double_append _ _
  · exact uniq_double_append _ _
  · apply Source.ext
    · by_cases hs : s.source.via = "manus"
      · have hm : (merge_one d s).source.via = "manus" := by
          rw [merge_one_via]
          by_cases hd : d.source.via = "manus" <;> simp [hd, hs]
        rw [merge_one_via, hm]
        simp
      · rw [merge_one_via (merge_one d s) s, merge_one_via d s]
        simp [hs]
    · by_cases hs : s.source.country = ""
      · rw [merge_one_country (merge_one d s) s]
        simp [hs]
      · by_cases hd : d.source.country = ""
        · have hm : (merge_one d s).source.country = s.source.country := by
            rw [merge_one_country]; simp [hd, hs]
          rw [merge_one_country (merge_one d s) s, hm]
          simp [hs]
        · have hm : (merge_one d s).source.country = d.source.country := by
            rw [merge_one_country]; simp [hd]
          rw [merge_one_country (merge_one d s) s, hm]
          simp [hd]

/-- C7 counterexample: the claim says the incoming draft's `name` fills
the field whenever the existing value is empty, but `merge_one` never
touches `name` — merging a draft named `"Incoming"` into a record with
empty name leaves the name empty. -/
theorem C7_counterexample :
    (merge_one { name := "", symbol := "star" } { name := "Incoming" }).name = "" ∧
    (merge_one { name := "", symbol := "star" } { name := "Incoming" }).name ≠ "Incoming" := by
  exact ⟨rfl, by decide⟩

/-- C7 amended: only `symbol` has keep-existing/fill-if-empty semantics
(with the sentinel `"app.fill"` when the incoming symbol is empty too);
`name` is always kept unchanged, even when it is empty — the incoming
name never fills it. -/
theorem C7_symbol_fill (d s : AppRecord) :
    (merge_one d s).name = d.name ∧
    (d.symbol ≠ "" → (merge_one d s).symbol = d.symbol) ∧
    (d.symbol = "" → s.symbol ≠ "" → (merge_one d s).symbol = s.symbol) ∧
    (d.symbol = "" → s.symbol = "" → (merge_one d s).symbol = "app.fill") := by
  refine ⟨rfl, fun h => ?_, fun h1 h2 => ?_, fun h1 h2 => ?_⟩
  · rw [merge_one_symbol, if_neg h]
  · rw [merge_one_symbol, if_pos h1, if_neg h2]
  · rw [merge_one_symbol, if_pos h1, if_pos h2]

/-- C7 witness for the amended statement at concrete inputs. -/
theorem C7_symbol_fill_witness :
    (merge_one { symbol := "" } { symbol := "moon" } : AppRecord).symbol = "moon" :=
  (C7_symbol_fill { symbol := "" } { symbol := "moon" }).2.2.1 rfl (by decide)

/-- C6: evaluation of the code at the failing input.  `h.lstrip("www.")`
strips leading characters drawn from the set `{'w', '.'}`, not the
prefix `"www."`: the netloc `weather.com` (which does not start with
`"www."`) loses its leading `w`, while `www.minecraft.net` happens to be
handled as the spec intends. -/
theorem C6_lstrip_eval :
    host_from_url "https://weather.com/" = "eather.com" ∧
    host_from_url "https://www.w3.org/" = "3.org" ∧
    host_from_url "https://www.minecraft.net/play" = "minecraft.net" := by
  exact ⟨rfl, rfl, rfl⟩

/-- C4 counterexample: a pending file whose content is not parseable JSON
is *not* isolated the way the claim says — `load_json` swallows the
`json.JSONDecodeError` and returns `[]`, so the record loop completes,
no error naming the file is logged, and the file *is* moved to the
processed area. -/
theorem C4_counterexample :
    process_file "broken.json" "us" ([], index_apps []) FileShape.malformed =
      (([], index_apps []), true, []) := rfl

/-- C4 amended: a pending file with unparseable JSON contributes no
records (the catalog state is unchanged), but no error is logged and the
file is archived like a successful one, so it is not retried; the run
continues with the remaining files.  Only a record-level exception inside
a parsed file (e.g. a record that is not a JSON object) leaves the file
unarchived with a logged error naming the file. -/
theorem C4_parse_failure (fname cc : String) (st : CatState)
    (rest : List (String × FileShape)) (l : List (Option RawApp)) :
    process_file fname cc st FileShape.malformed = (st, true, []) ∧
    process_file fname cc st (FileShape.arr (none :: l)) =
      (st, false, ["[ERROR] " ++ fname]) ∧
    process_files cc st ((fname, FileShape.malformed) :: rest) =
      ((process_files cc st rest).1, fname :: (process_files cc st rest).2.1,
        (process_files cc st rest).2.2) := by
  refine ⟨rfl, rfl, ?_⟩
  show (let r := process_files cc st rest
    (r.1, (if true then [fname] else []) ++ r.2.1, [] ++ r.2.2)) = _
  simp

/-! ## Projection lemmas for `normalize_app` -/

theorem normalize_app_name (a : RawApp) (cc : String) :
    (normalize_app a cc).name = pyStrip a.name := rfl

theorem normalize_app_symbol (a : RawApp) (cc : String) :
    (normalize_app a cc).symbol =
      pyStrip (if a.symbol = "" then "app.fill" else a.symbol) := rfl

theorem normalize_app_schemes (a : RawApp) (cc : String) :
    (normalize_app a cc).schemes = uniq ((strEntries a.schemes).map pyStrip) := rfl

theorem normalize_app_universalLinks (a : RawApp) (cc : String) :
    (normalize_app a cc).universalLinks =
      uniq ((strEntries a.universalLinks).map pyStrip) := rfl

theorem normalize_app_webHosts (a : RawApp) (cc : String) :
    (normalize_app a cc).webHosts =
      uniq (uniq ((strEntries a.webHosts).map (fun h => pyLower (pyStrip h))) ++
        (((normalize_app a cc).universalLinks).map host_from_url).filter
          (fun h => h != "")) := rfl

theorem normalize_app_aliases (a : RawApp) (cc : String) :
    (normalize_app a cc).aliases =
      (if pyStrip a.name ≠ "" ∧ pyStrip a.name ∉ uniq ((strEntries a.aliases).map pyStrip)
        then uniq ((strEntries a.aliases).map pyStrip) ++ [pyStrip a.name]
        else uniq ((strEntries a.aliases).map pyStrip)) := rfl

theorem normalize_app_categories (a : RawApp) (cc : String) :
    (normalize_app a cc).categories =
      uniq ((strEntries a.categories).map (fun c => pyLower (pyStrip c))) := rfl

theorem normalize_app_source (a : RawApp) (cc : String) :
    (normalize_app a cc).source =
      { via := if a.sourceVia = "" then "manus" else a.sourceVia,
        country := if a.sourceCountry = "" then pyUpper cc else a.sourceCountry } := rfl

theorem normalize_app_id (a : RawApp) (cc : String) :
    (normalize_app a cc).id =
      (if pyStrip a.id = "" then
        slug (if pyStrip a.name ≠ "" then pyStrip a.name
          else (match (normalize_app a cc).webHosts with | h :: _ => h | [] => "app"))
      else pyStrip a.id) := rfl

theorem slug_ne_empty (s : String) : slug s ≠ "" := by
  unfold slug
  dsimp only
  split
  · decide
  · assumption

theorem normalize_app_id_ne (a : RawApp) (cc : String) :
    (normalize_app a cc).id ≠ "" := by
  rw [normalize_app_id]
  split
  · exact slug_ne_empty _
  · assumption

/-- C8 counterexample: a record lacking both a usable name and any
derivable id source is *not* dropped — feeding the empty record through
the file loop adds a catalog entry with the synthesized fallback id
`"app"`, and nothing is logged. -/
theorem C8_counterexample :
    ((process_file "f.json" "us" ([], index_apps []) (FileShape.arr [some {}])).1.1.map
      AppRecord.id = ["app"]) ∧
    (process_file "f.json" "us" ([], index_apps []) (FileShape.arr [some {}])).2.2 = [] := by
  decide

/-- C8 amended: normalization never fails — a record with neither a
usable name nor any id source receives the constant fallback id `"app"`
and is folded into the catalog like any other record (merged on a match,
appended otherwise); no warning is emitted and processing continues. -/
theorem C8_no_drop (a : RawApp) (cc : String) (st : CatState)
    (hid : pyStrip a.id = "") (hname : pyStrip a.name = "")
    (hhost : (normalize_app a cc).webHosts = []) :
    (normalize_app a cc).id = "app" ∧
    ((step cc st a).2 = true ∧ (step cc st a).1.1.length = st.1.length ∨
      (step cc st a).2 = false ∧ (step cc st a).1.1 = st.1 ++ [normalize_app a cc]) := by
  constructor
  · rw [normalize_app_id, if_pos hid, if_neg (by simp [hname]), hhost]
    decide
  · unfold step apply_draft
    cases hfm : find_match (normalize_app a cc) st.2 with
    | some i => exact Or.inl ⟨rfl, List.length_set _ _ _⟩
    | none => exact Or.inr ⟨rfl, rfl⟩

/-- C8 witness: the empty raw record, region `"de"`. -/
theorem C8_no_drop_witness :
    (normalize_app ({} : RawApp) "de").id = "app" ∧
    (step "de" ([], index_apps []) ({} : RawApp)).1.1 =
      [] ++ [normalize_app ({} : RawApp) "de"] := by
  have h := C8_no_drop {} "de" ([], index_apps []) rfl rfl rfl
  refine ⟨h.1, ?_⟩
  rcases h.2 with ⟨hfl, _⟩ | ⟨_, happ⟩
  · exact absurd hfl (by decide)
  · exact happ

/-! ## C3: the webHosts/universalLinks invariant -/

theorem host_strip_ne (u : String) (hne : host_from_url u ≠ "") :
    pyStrip (host_from_url u) ≠ "" := by
  by_cases h0 : pyStrip (pyLower (netlocOf u)) = ""
  · exfalso
    apply hne
    unfold host_from_url
    rw [if_pos h0]
  · have hhost : host_from_url u =
        ⟨(pyStrip (pyLower (netlocOf u))).data.dropWhile (fun c => c == 'w' || c == '.')⟩ := by
      unfold host_from_url
      rw [if_neg h0]
    rw [hhost] at hne ⊢
    intro hcontra
    have hr : (pyStrip (pyLower (netlocOf u))).data.dropWhile
        (fun c => c == 'w' || c == '.') ≠ [] := by
      intro hnil
      apply hne
      rw [show ((⟨(pyStrip (pyLower (netlocOf u))).data.dropWhile
        (fun c => c == 'w' || c == '.')⟩ : String)) = ⟨[]⟩ from by rw [hnil]]
    have hsc : stripChars ((pyStrip (pyLower (netlocOf u))).data.dropWhile
        (fun c => c == 'w' || c == '.')) = [] := by
      have h' := congrArg String.data hcontra
      simpa [pyStrip] using h'
    have hall := stripChars_eq_nil_forall _ hsc
    obtain ⟨c, hc⟩ := Option.isSome_iff_exists.mp (List.getLast?_isSome.mpr hr)
    have hmem := List.mem_of_mem_getLast? (by rw [hc]; rfl :
      c ∈ ((pyStrip (pyLower (netlocOf u))).data.dropWhile
        (fun ch => ch == 'w' || ch == '.')).getLast?)
    have hlast := dropWhile_getLastq (fun ch => ch == 'w' || ch == '.')
      (pyStrip (pyLower (netlocOf u))).data hr
    have hnotws : isPySpace c = false := by
      apply stripChars_getLastq_not (pyLower (netlocOf u)).data
      show c ∈ (stripChars (pyLower (netlocOf u)).data).getLast?
      have hdata : (pyStrip (pyLower (netlocOf u))).data =
          stripChars (pyLower (netlocOf u)).data := rfl
      rw [← hdata, ← hlast, hc]
      rfl
    have hws := hall c hmem
    rw [hws] at hnotws
    exact Bool.noConfusion hnotws

/-- Every derived universal-link host of a record is represented in its
`webHosts`, up to Python `strip()`-equality of the strings. -/
def hostRep (r : AppRecord) : Prop :=
  ∀ u ∈ r.universalLinks, host_from_url u ≠ "" →
    ∃ h ∈ r.webHosts, pyStrip h = pyStrip (host_from_url u)

/-- C3 counterexample: exact set membership `webHosts ⊇ host(u)` fails on
the code.  For the raw record with `webHosts = ["w.com"]` and
`universalLinks = ["http://ww w.com/"]`, the derived host is `" w.com"`
(the `lstrip` set-strip stops at the interior space), and `uniq` keeps
the earlier entry `"w.com"` because both share the stripped key, so the
derived host is not a member of the normalized record's `webHosts`. -/
theorem C3_counterexample :
    "http://ww w.com/" ∈ (normalize_app
      { universalLinks := PyList.items [some "http://ww w.com/"],
        webHosts := PyList.items [some "w.com"] } "us").universalLinks ∧
    host_from_url "http://ww w.com/" = " w.com" ∧
    " w.com" ∉ (normalize_app
      { universalLinks := PyList.items [some "http://ww w.com/"],
        webHosts := PyList.items [some "w.com"] } "us").webHosts := by
  decide

/-- Every universalLinks entry of a record is a stripped string.  This
holds of every record the engine produces (normalization and merging
both pass the entries through `uniq`, which appends stripped keys), and
it is the well-formedness fact that lets `hostRep` survive a merge. -/
def ulStripped (r : AppRecord) : Prop := ∀ u ∈ r.universalLinks, IsStripped u

/-- C3 amended: for every record produced by normalization, and for every
record produced by merging two such records, every nonempty derived host
of a universal link is represented in `webHosts` up to
`strip()`-equality (exact membership can fail only when the derived host
carries whitespace, as in the counterexample).  The invariant carried
through the engine is `hostRep` together with `ulStripped`; normalization
establishes both and merging preserves both. -/
theorem C3_host_invariant :
    (∀ a cc, hostRep (normalize_app a cc) ∧ ulStripped (normalize_app a cc)) ∧
    (∀ d s, hostRep d → ulStripped d → hostRep s → ulStripped s →
      hostRep (merge_one d s) ∧ ulStripped (merge_one d s)) := by
  constructor
  · intro a cc
    constructor
    · intro u hu hne
      rw [normalize_app_webHosts]
      have hmem : host_from_url u ∈
          uniq ((strEntries a.webHosts).map (fun h => pyLower (pyStrip h))) ++
            (((normalize_app a cc).universalLinks).map host_from_url).filter
              (fun h => h != "") := by
        apply List.mem_append_right
        rw [List.mem_filter]
        refine ⟨List.mem_map_of_mem host_from_url hu, by simpa using hne⟩
      obtain ⟨h, hh, hkey⟩ := uniq_key_rep hmem (host_strip_ne u hne)
      exact ⟨h, hh, hkey⟩
    · intro u hu
      rw [normalize_app_universalLinks] at hu
      exact uniq_elem_stripped u hu
  · intro d s hd hds hs hss
    constructor
    · intro u hu hne
      rw [merge_one_universalLinks] at hu
      rw [merge_one_webHosts]
      obtain ⟨y, hy, rfl⟩ := uniq_mem_strip hu
      rcases List.mem_append.mp hy with hul | hul
      · have hys : pyStrip y = y := hds y hul
        rw [hys] at hne ⊢
        obtain ⟨h, hh, hkey⟩ := hd y hul hne
        obtain ⟨h', hh', hkey'⟩ := uniq_key_rep
          (List.mem_append_left s.webHosts hh) (by rw [hkey]; exact host_strip_ne y hne)
        exact ⟨h', hh', hkey'.trans hkey⟩
      · have hys : pyStrip y = y := hss y hul
        rw [hys] at hne ⊢
        obtain ⟨h, hh, hkey⟩ := hs y hul hne
        obtain ⟨h', hh', hkey'⟩ := uniq_key_rep
          (List.mem_append_right d.webHosts hh) (by rw [hkey]; exact host_strip_ne y hne)
        exact ⟨h', hh', hkey'.trans hkey⟩
    · intro u hu
      rw [merge_one_universalLinks] at hu
      exact uniq_elem_stripped u hu

/-- C3 witness: the invariant instantiated on concrete records, including
a merged pair, with the hypotheses discharged by the theorem itself. -/
theorem C3_host_invariant_witness :
    hostRep (merge_one
      (normalize_app { universalLinks := PyList.items [some "https://www.alpha.com/x"] } "us")
      (normalize_app { universalLinks := PyList.items [some "https://beta.com/"] } "jp")) :=
  (C3_host_invariant.2 _ _
    (C3_host_invariant.1 _ "us").1 (C3_host_invariant.1 _ "us").2
    (C3_host_invariant.1 _ "jp").1 (C3_host_invariant.1 _ "jp").2).1

/-! ## C1: id priority in the resolver -/

theorem lookup_cons_ne {β : Type} (k0 k' : String) (v0 : β) (rest : List (String × β))
    (h : k' ≠ k0) : ((k0, v0) :: rest).lookup k' = rest.lookup k' := by
  show (match k' == k0 with | true => some v0 | false => rest.lookup k') = rest.lookup k'
  rw [show (k' == k0) = false from beq_eq_false_iff_ne.mpr h]

theorem lookup_dictSet (d : List (String × Nat)) (k : String) (v : Nat) (k' : String) :
    (dictSet d k v).lookup k' = if k' = k then some v else d.lookup k' := by
  induction d with
  | nil =>
    by_cases h : k' = k
    · subst h
      rw [if_pos rfl]
      exact List.lookup_cons_self
    · rw [if_neg h]
      show ((k, v) :: []).lookup k' = List.lookup k' []
      rw [lookup_cons_ne _ _ _ _ h]
  | cons p rest ih =>
    obtain ⟨k0, v0⟩ := p
    by_cases h0 : k0 = k
    · subst h0
      rw [show dictSet ((k0, v0) :: rest) k0 v = (k0, v) :: rest from by simp [dictSet]]
      by_cases h : k' = k0
      · subst h
        rw [if_pos rfl]
        exact List.lookup_cons_self
      · rw [if_neg h, lookup_cons_ne _ _ _ _ h, lookup_cons_ne _ _ _ _ h]
    · rw [show dictSet ((k0, v0) :: rest) k v = (k0, v0) :: dictSet rest k v from by
        simp [dictSet, h0]]
      by_cases h : k' = k0
      · subst h
        have hne : ¬ k' = k := fun hc => h0 (hc ▸ rfl)
        rw [if_neg hne, List.lookup_cons_self, List.lookup_cons_self]
      · rw [lookup_cons_ne _ _ _ _ h, lookup_cons_ne _ _ _ _ h, ih]

theorem foldl_by_id {α : Type} (f : Index → α → Index)
    (hf : ∀ ix x, (f ix x).by_id = ix.by_id) :
    ∀ (l : List α) (ix : Index), (l.foldl f ix).by_id = ix.by_id := by
  intro l
  induction l with
  | nil => intro ix; rfl
  | cons x xs ih => intro ix; rw [List.foldl_cons, ih, hf]

theorem aliasInsert_by_id (i : Nat) (ix : Index) (al : String) :
    (aliasInsert i ix al).by_id = ix.by_id := by
  unfold aliasInsert
  split <;> rfl

theorem hostInsert_by_id (i : Nat) (ix : Index) (h : String) :
    (hostInsert i ix h).by_id = ix.by_id := by
  unfold hostInsert
  split <;> rfl

theorem index_one_by_id (i : Nat) (a : AppRecord) (idx : Index) :
    (index_one i a idx).by_id =
      (if a.id ≠ "" then dictSet idx.by_id a.id i else idx.by_id) := by
  unfold index_one
  rw [foldl_by_id _ (hostInsert_by_id i), foldl_by_id _ (aliasInsert_by_id i)]
  split <;> split <;> rfl

theorem index_from_by_id_inv (Q : String → Nat → Prop) :
    ∀ (l : List AppRecord) (j : Nat) (idx : Index),
      (∀ k i, idx.by_id.lookup k = some i → Q k i) →
      (∀ m a, l.get? m = some a → a.id ≠ "" → Q a.id (j + m)) →
      ∀ k i, (index_from j l idx).by_id.lookup k = some i → Q k i := by
  intro l
  induction l with
  | nil => intro j idx hidx _ k i h; exact hidx k i h
  | cons a rest ih =>
    intro j idx hidx hl k i h
    rw [index_from] at h
    refine ih (j + 1) (index_one j a idx) ?_ ?_ k i h
    · intro k' i' hk'
      rw [index_one_by_id] at hk'
      by_cases hid : a.id ≠ ""
      · rw [if_pos hid, lookup_dictSet] at hk'
        by_cases hkk : k' = a.id
        · rw [if_pos hkk] at hk'
          have hji := Option.some.inj hk'
          subst hji
          subst hkk
          have := hl 0 a rfl hid
          simpa using this
        · rw [if_neg hkk] at hk'
          exact hidx _ _ hk'
      · rw [if_neg hid] at hk'
        exact hidx _ _ hk'
    · intro m a' hm hid'
      have := hl (m + 1) a' (by simpa using hm) hid'
      have harr : j + (m + 1) = j + 1 + m := by omega
      rwa [harr] at this

theorem by_id_lookup_pos (base : List AppRecord) (k : String) (i : Nat)
    (h : (index_apps base).by_id.lookup k = some i) :
    ∃ hlt : i < base.length, (base.get ⟨i, hlt⟩).id = k := by
  refine index_from_by_id_inv
    (fun k' i' => ∃ hlt : i' < base.length, (base.get ⟨i', hlt⟩).id = k')
    base 0 {} ?_ ?_ k i h
  · intro k' i' h'
    exact Option.noConfusion h'
  · intro m a hm hid
    obtain ⟨hlt, hget⟩ := List.get?_eq_some.mp hm
    have hlt' : 0 + m < base.length := by simpa using hlt
    refine ⟨hlt', ?_⟩
    have heq : base.get ⟨0 + m, hlt'⟩ = a := by
      simp only [Nat.zero_add]
      exact hget
    rw [heq]

/-- C1: identity resolution honours the id index first.  Whenever the
normalized draft's `id` is a key of the id index, `find_match` returns
exactly the record the id index designates — regardless of what the
name, alias or host indices would match — the draft is merged in place
into that record, and no new record is created (the catalog keeps its
length and the step reports a merge, not an addition). -/
theorem C1_id_priority (a : RawApp) (cc : String) (base : List AppRecord) (i : Nat)
    (hfound : (index_apps base).by_id.lookup (normalize_app a cc).id = some i) :
    find_match (normalize_app a cc) (index_apps base) = some i ∧
    (∃ hlt : i < base.length, (base.get ⟨i, hlt⟩).id = (normalize_app a cc).id) ∧
    (step cc (base, index_apps base) a).1.1 =
      base.set i (merge_one (base.getD i dfltApp) (normalize_app a cc)) ∧
    (step cc (base, index_apps base) a).1.1.length = base.length ∧
    (step cc (base, index_apps base) a).2 = true := by
  have hne := normalize_app_id_ne a cc
  have hfm : find_match (normalize_app a cc) (index_apps base) = some i := by
    unfold find_match
    rw [if_pos hne, hfound]
  have hstep : step cc (base, index_apps base) a =
      ((base.set i (merge_one (base.getD i dfltApp) (normalize_app a cc)),
        index_apps base), true) := by
    show apply_draft _ _ = _
    unfold apply_draft
    rw [hfm]
  refine ⟨hfm, by_id_lookup_pos base _ i hfound, ?_, ?_, ?_⟩ <;> rw [hstep]
  exact List.length_set _ _ _

/-- Existing record A of the C1 witness catalog. -/
def c1A : AppRecord :=
  { id := "alpha", name := "alpha", aliases := ["alpha"], webHosts := ["alpha.com"] }

/-- Existing record B of the C1 witness catalog: shares the draft's name,
alias and host. -/
def c1B : AppRecord :=
  { id := "beta", name := "beta", aliases := ["beta", "shared"], webHosts := ["shared.com"] }

/-- C1 witness draft: its `id` designates A while its name, alias and
webHost all designate B. -/
def c1draft : RawApp :=
  { id := "alpha", name := "beta", aliases := PyList.items [some "shared"],
    webHosts := PyList.items [some "shared.com"] }

/-- C1 witness: on the concrete two-record catalog the draft resolves to
position 0 (record A) and merging keeps the catalog at two records. -/
theorem C1_id_priority_witness :
    find_match (normalize_app c1draft "us") (index_apps [c1A, c1B]) = some 0 ∧
    (step "us" ([c1A, c1B], index_apps [c1A, c1B]) c1draft).1.1.length =
      ([c1A, c1B] : List AppRecord).length ∧
    (step "us" ([c1A, c1B], index_apps [c1A, c1B]) c1draft).2 = true := by
  have h := C1_id_priority c1draft "us" [c1A, c1B] 0 (by decide)
  exact ⟨h.1, h.2.2.2.1, h.2.2.2.2⟩

/-! ## C10: re-normalization -/

/-- A string is lowered when Python `lower()` leaves it unchanged. -/
def IsLowered (s : String) : Prop := pyLower s = s

theorem isLowered_pyLower (s : String) : IsLowered (pyLower s) := pyLower_idem s

theorem isStripped_lower_strip (w : String) : IsStripped (pyLower (pyStrip w)) := by
  rw [IsStripped, pyStrip_pyLower, pyStrip_idem]

theorem map_pyStrip_id {l : List String} (h : ∀ x ∈ l, IsStripped x) :
    l.map pyStrip = l := by
  rw [show l.map pyStrip = l.map id from List.map_congr_left h, List.map_id]

theorem isLowered_pyStrip {s : String} (h : IsLowered s) : IsLowered (pyStrip s) := by
  rw [IsLowered, ← pyStrip_pyLower, show pyLower s = s from h]

/-- Viewing a normalized record as raw input again, as the Python code
does when it re-runs `normalize_app` on a catalog already normalized
(all scalar fields are strings, all list fields are lists of strings). -/
def AppRecord.toRaw (r : AppRecord) : RawApp :=
  { id := r.id, name := r.name, symbol := r.symbol,
    schemes := PyList.items (r.schemes.map some),
    universalLinks := PyList.items (r.universalLinks.map some),
    webHosts := PyList.items (r.webHosts.map some),
    aliases := PyList.items (r.aliases.map some),
    categories := PyList.items (r.categories.map some),
    sourceVia := r.source.via, sourceCountry := r.source.country }

theorem strEntries_map_some (l : List String) :
    strEntries (PyList.items (l.map some)) = l := by
  simp [strEntries, ensure_list, List.filterMap_map]

theorem isLowered_host (u : String) : IsLowered (host_from_url u) := by
  unfold host_from_url
  dsimp only
  by_cases h0 : pyStrip (pyLower (netlocOf u)) = ""
  · rw [if_pos h0]
    rfl
  · rw [if_neg h0]
    show pyLower ⟨_⟩ = _
    unfold pyLower
    congr 1
    apply List.map_congr_left ?_ |>.trans (List.map_id _)
    intro c hc
    have hc1 : c ∈ (pyStrip (pyLower (netlocOf u))).data := mem_dropWhile _ _ c hc
    have hc2 : c ∈ (pyLower (netlocOf u)).data := mem_stripChars _ c hc1
    obtain ⟨c', _, rfl⟩ := List.mem_map.mp hc2
    exact char_toLower_toLower c'

theorem collapse_no_ws (l : List Char) :
    ∀ b, ∀ c ∈ collapseSepAux b l, isPySpace c = false := by
  induction l with
  | nil => intro b c hc; simp [collapseSepAux] at hc
  | cons a l ih =>
    intro b c hc
    by_cases hs : isSepChar a
    · rw [collapseSepAux, if_pos hs] at hc
      by_cases hb : b
      · subst hb
        rw [if_pos rfl] at hc
        exact ih true c hc
      · rw [if_neg (by simpa using hb)] at hc
        rcases List.mem_cons.mp hc with rfl | hc
        · decide
        · exact ih true c hc
    · rw [collapseSepAux, if_neg hs] at hc
      rcases List.mem_cons.mp hc with rfl | hc
      · have : isSepChar c = false := by simpa using hs
        rcases Bool.or_eq_false_iff.mp this with ⟨h1, _⟩
        rcases Bool.or_eq_false_iff.mp h1 with ⟨h2, _⟩
        exact h2
      · exact ih false c hc

theorem no_ws_strip (l : List Char) (h : ∀ c ∈ l, isPySpace c = false) :
    stripChars l = l := by
  unfold stripChars
  rw [dropWhile_eq_self_of_not _ _ h]
  rw [dropWhile_eq_self_of_not _ _ (fun c hc => h c (List.mem_reverse.mp hc))]
  exact List.reverse_reverse l

theorem slug_stripped (s : String) : IsStripped (slug s) := by
  unfold slug
  dsimp only
  split
  · exact (by decide : pyStrip "app" = "app")
  · show pyStrip ⟨_⟩ = _
    unfold pyStrip
    congr 1
    apply no_ws_strip
    intro c hc
    exact collapse_no_ws _ false c (List.mem_of_mem_take hc)

theorem normalize_app_id_stripped (a : RawApp) (cc : String) :
    IsStripped (normalize_app a cc).id := by
  rw [normalize_app_id]
  split
  · exact slug_stripped _
  · exact pyStrip_idem _

theorem name_mem_aliases (a : RawApp) (cc : String)
    (h : (normalize_app a cc).name ≠ "") :
    (normalize_app a cc).name ∈ (normalize_app a cc).aliases := by
  rw [normalize_app_name] at h ⊢
  rw [normalize_app_aliases]
  by_cases hmem : pyStrip a.name ∈ uniq ((strEntries a.aliases).map pyStrip)
  · rw [if_neg (by tauto)]
    exact hmem
  · rw [if_pos ⟨h, hmem⟩]
    exact List.mem_append_right _ (List.mem_singleton.mpr rfl)

theorem aliases_stripped (a : RawApp) (cc : String) :
    ∀ x ∈ (normalize_app a cc).aliases, IsStripped x := by
  intro x hx
  rw [normalize_app_aliases] at hx
  by_cases hcond : pyStrip a.name ≠ "" ∧
      pyStrip a.name ∉ uniq ((strEntries a.aliases).map pyStrip)
  · rw [if_pos hcond] at hx
    rcases List.mem_append.mp hx with hx | hx
    · exact uniq_elem_stripped x hx
    · rw [List.mem_singleton.mp hx]
      exact pyStrip_idem _
  · rw [if_neg hcond] at hx
    exact uniq_elem_stripped x hx

theorem uniq_aliases_self (a : RawApp) (cc : String) :
    uniq (normalize_app a cc).aliases = (normalize_app a cc).aliases := by
  rw [normalize_app_aliases]
  by_cases hcond : pyStrip a.name ≠ "" ∧
      pyStrip a.name ∉ uniq ((strEntries a.aliases).map pyStrip)
  · rw [if_pos hcond]
    apply uniqAux_eq_self
    · intro x hx
      rcases List.mem_append.mp hx with hx | hx
      · exact uniq_elem_stripped x hx
      · rw [List.mem_singleton.mp hx]
        exact pyStrip_idem _
    · intro x hx
      rcases List.mem_append.mp hx with hx | hx
      · exact ⟨(uniqAux_key_not_seen hx).1, by simp⟩
      · rw [List.mem_singleton.mp hx]
        refine ⟨?_, by simp⟩
        rw [pyStrip_idem]
        exact hcond.1
    · rw [List.pairwise_append]
      refine ⟨uniqAux_pairwise _ _, List.pairwise_singleton _ _, ?_⟩
      intro x hx y hy
      rw [List.mem_singleton.mp hy]
      have hxs : IsStripped x := uniq_elem_stripped x hx
      rw [IsStripped] at hxs
      rw [hxs, pyStrip_idem]
      intro hc
      exact hcond.2 (hc ▸ hx)
  · rw [if_neg hcond]
    exact uniq_uniq _

theorem webHosts_fixed (a : RawApp) (cc : String) :
    ∀ x ∈ (normalize_app a cc).webHosts, pyLower (pyStrip x) = x := by
  intro x hx
  rw [normalize_app_webHosts] at hx
  obtain ⟨y, hy, rfl⟩ := uniq_mem_strip hx
  rw [pyStrip_idem]
  have hyl : IsLowered y := by
    rcases List.mem_append.mp hy with hy | hy
    · obtain ⟨z, hz, rfl⟩ := uniq_mem_strip hy
      obtain ⟨w, _, rfl⟩ := List.mem_map.mp hz
      exact isLowered_pyStrip (isLowered_pyLower (pyStrip w))
    · rcases List.mem_filter.mp hy with ⟨hy1, _⟩
      obtain ⟨u, _, rfl⟩ := List.mem_map.mp hy1
      exact isLowered_host u
  exact isLowered_pyStrip hyl

/-- C10 counterexample: normalization is not idempotent.  A raw symbol
consisting of one space is truthy, so the first pass strips it to the
empty string; the second pass sees the empty string as falsy and
replaces it with `"app.fill"`. -/
theorem C10_counterexample :
    (normalize_app (AppRecord.toRaw
      (normalize_app { name := "x", symbol := " " } "us")) "us").symbol = "app.fill" ∧
    (normalize_app { name := "x", symbol := " " } "us").symbol = "" ∧
    normalize_app (AppRecord.toRaw (normalize_app { name := "x", symbol := " " } "us")) "us" ≠
      normalize_app { name := "x", symbol := " " } "us" := by
  decide

/-- C10 amended: re-normalizing a normalized record is the identity
provided the normalized symbol is nonempty (i.e. the raw symbol was not
whitespace-only) — every field, including the synthesized id, the set
fields' members and order, the name inside aliases, and the source
object, is reproduced exactly. -/
theorem C10_normalize_idem (a : RawApp) (cc : String)
    (hsym : (normalize_app a cc).symbol ≠ "") :
    normalize_app (AppRecord.toRaw (normalize_app a cc)) cc = normalize_app a cc := by
  have hul : (normalize_app (AppRecord.toRaw (normalize_app a cc)) cc).universalLinks =
      (normalize_app a cc).universalLinks := by
    rw [normalize_app_universalLinks]
    simp only [AppRecord.toRaw]
    rw [strEntries_map_some,
      map_pyStrip_id (fun x hx => by
        rw [normalize_app_universalLinks] at hx
        exact uniq_elem_stripped x hx),
      normalize_app_universalLinks, uniq_uniq]
  apply AppRecord.ext
  · -- id
    rw [normalize_app_id]
    simp only [AppRecord.toRaw]
    rw [show pyStrip (normalize_app a cc).id = (normalize_app a cc).id from
      normalize_app_id_stripped a cc]
    rw [if_neg (normalize_app_id_ne a cc)]
  · -- name
    rw [normalize_app_name]
    simp only [AppRecord.toRaw]
    rw [normalize_app_name, pyStrip_idem]
  · -- symbol
    rw [normalize_app_symbol]
    simp only [AppRecord.toRaw]
    rw [if_neg hsym, normalize_app_symbol, pyStrip_idem]
  · -- schemes
    rw [normalize_app_schemes]
    simp only [AppRecord.toRaw]
    rw [strEntries_map_some,
      map_pyStrip_id (fun x hx => by
        rw [normalize_app_schemes] at hx
        exact uniq_elem_stripped x hx),
      normalize_app_schemes, uniq_uniq]
  · -- universalLinks
    exact hul
  · -- webHosts
    rw [normalize_app_webHosts, hul]
    simp only [AppRecord.toRaw]
    rw [strEntries_map_some]
    rw [show (normalize_app a cc).webHosts.map (fun h => pyLower (pyStrip h)) =
        (normalize_app a cc).webHosts from by
      rw [show (normalize_app a cc).webHosts.map (fun h => pyLower (pyStrip h)) =
          (normalize_app a cc).webHosts.map id from
        List.map_congr_left (webHosts_fixed a cc), List.map_id]]
    rw [show uniq (normalize_app a cc).webHosts = (normalize_app a cc).webHosts from by
      rw [normalize_app_webHosts]
      exact uniq_uniq _]
    rw [normalize_app_webHosts]
    rw [uniq_append_absorb _ _ (fun x hx =>
      Or.inr ⟨x, List.mem_append_right _ hx, rfl⟩)]
  · -- aliases
    rw [normalize_app_aliases]
    simp only [AppRecord.toRaw]
    rw [strEntries_map_some, map_pyStrip_id (aliases_stripped a cc), uniq_aliases_self a cc,
      show pyStrip (normalize_app a cc).name = (normalize_app a cc).name from by
        rw [normalize_app_name, pyStrip_idem]]
    by_cases hname : (normalize_app a cc).name = ""
    · rw [if_neg (by simp [hname])]
    · rw [if_neg (fun hcond => hcond.2 (name_mem_aliases a cc hname))]
  · -- categories
    rw [normalize_app_categories]
    simp only [AppRecord.toRaw]
    rw [strEntries_map_some]
    rw [show (normalize_app a cc).categories.map (fun c => pyLower (pyStrip c)) =
        (normalize_app a cc).categories from by
      rw [show (normalize_app a cc).categories.map (fun c => pyLower (pyStrip c)) =
          (normalize_app a cc).categories.map id from
        List.map_congr_left (fun x hx => by
          rw [normalize_app_categories] at hx
          obtain ⟨y, hy, rfl⟩ := uniq_mem_strip hx
          obtain ⟨c0, _, rfl⟩ := List.mem_map.mp hy
          rw [pyStrip_idem]
          exact isLowered_pyStrip (isLowered_pyLower (pyStrip c0))), List.map_id]]
    rw [normalize_app_categories, uniq_uniq]
  · -- source
    have hvia : (normalize_app a cc).source.via ≠ "" := by
      rw [normalize_app_source]
      dsimp only
      split
      · decide
      · assumption
    rw [normalize_app_source]
    simp only [AppRecord.toRaw]
    apply Source.ext
    · dsimp only
      rw [if_neg hvia]
    · dsimp only
      by_cases hc : (normalize_app a cc).source.country = ""
      · rw [if_pos hc]
        rw [normalize_app_source] at hc ⊢
        dsimp only at hc ⊢
        by_cases hsc : a.sourceCountry = ""
        · rw [if_pos hsc]
        · rw [if_neg hsc] at hc
          exact absurd hc hsc
      · rw [if_neg hc]

instance (s : String) : Decidable (IsStripped s) :=
  decidable_of_iff (pyStrip s = s) Iff.rfl

/-- C10 witness for the amended idempotence statement: a concrete record
with a name and a well-formed universal link. -/
theorem C10_normalize_idem_witness :
    normalize_app (AppRecord.toRaw (normalize_app
      { name := "Some App", universalLinks := PyList.items [some "https://www.foo.com/bar"] }
      "us")) "us" =
    normalize_app
      { name := "Some App", universalLinks := PyList.items [some "https://www.foo.com/bar"] }
      "us" :=
  C10_normalize_idem _ "us" (by decide)

/-! ## C5: id synthesis (`slug` fallback, and `decide_stable_id` of
`request_to_pending.py` lines 221-237 with its helpers)

`norm_key` and `slugify_ascii` are modelled on the ASCII fragment as
before; `unicodedata.normalize("NFKC", _)` is the identity there and is
elided.  `hashlib.md5` is modelled by a full implementation of RFC 1321
over the UTF-8 bytes of the name. -/

/-- `norm_key` of request_to_pending.py lines 109-120: lowercase, remove
whitespace, keep only word characters. -/
def norm_key (s : String) : String :=
  let s1 := pyLower s
  let s2 : String := ⟨s1.data.filter (fun c => !isPySpace c)⟩
  ⟨s2.data.filter isWordChar⟩

/-- Collapse every run of characters satisfying `p` into one `-`. -/
def dashRunsAux (p : Char → Bool) : Bool → List Char → List Char
  | _, [] => []
  | inRun, c :: cs =>
    if p c then
      if inRun then dashRunsAux p true cs else '-' :: dashRunsAux p true cs
    else c :: dashRunsAux p false cs

/-- `slugify_ascii` of request_to_pending.py lines 122-129: strip, drop
non-ASCII, turn runs of `[^A-Za-z0-9]` into `-` (after which the
`-{2,}` collapse is a no-op), strip `-` at both ends, lowercase. -/
def slugify_ascii (s : String) : String :=
  let s1 := pyStrip s
  let s2 : String := ⟨s1.data.filter (fun c => c.toNat ≤ 127)⟩
  let s3 : String := ⟨dashRunsAux (fun c => !c.isAlphanum) false s2.data⟩
  let s4 : String := ⟨((s3.data.dropWhile (· == '-')).reverse.dropWhile (· == '-')).reverse⟩
  pyLower s4

/-- Rotate a 32-bit word left by `n`. -/
def rotl32 (x n : Nat) : Nat :=
  ((x <<< n) % 4294967296) ||| (x >>> (32 - n))

/-- The 64 MD5 sine-table constants of RFC 1321. -/
def md5K : List Nat :=
  [0xd76aa478, 0xe8c7b756, 0x242070db, 0xc1bdceee,
   0xf57c0faf, 0x4787c62a, 0xa8304613, 0xfd469501,
   0x698098d8, 0x8b44f7af, 0xffff5bb1, 0x895cd7be,
   0x6b901122, 0xfd987193, 0xa679438e, 0x49b40821,
   0xf61e2562, 0xc040b340, 0x265e5a51, 0xe9b6c7aa,
   0xd62f105d, 0x02441453, 0xd8a1e681, 0xe7d3fbc8,
   0x21e1cde6, 0xc33707d6, 0xf4d50d87, 0x455a14ed,
   0xa9e3e905, 0xfcefa3f8, 0x676f02d9, 0x8d2a4c8a,
   0xfffa3942, 0x8771f681, 0x6d9d6122, 0xfde5380c,
   0xa4beea44, 0x4bdecfa9, 0xf6bb4b60, 0xbebfbc70,
   0x289b7ec6, 0xeaa127fa, 0xd4ef3085, 0x04881d05,
   0xd9d4d039, 0xe6db99e5, 0x1fa27cf8, 0xc4ac5665,
   0xf4292244, 0x432aff97, 0xab9423a7, 0xfc93a039,
   0x655b59c3, 0x8f0ccc92, 0xffeff47d, 0x85845dd1,
   0x6fa87e4f, 0xfe2ce6e0, 0xa3014314, 0x4e0811a1,
   0xf7537e82, 0xbd3af235, 0x2ad7d2bb, 0xeb86d391]

/-- The MD5 per-round left-rotation amounts. -/
def md5S : List Nat :=
  [7, 12, 17, 22, 7, 12, 17, 22, 7, 12, 17, 22, 7, 12, 17, 22,
   5, 9, 14, 20, 5, 9, 14, 20, 5, 9, 14, 20, 5, 9, 14, 20,
   4, 11, 16, 23, 4, 11, 16, 23, 4, 11, 16, 23, 4, 11, 16, 23,
   6, 10, 15, 21, 6, 10, 15, 21, 6, 10, 15, 21, 6, 10, 15, 21]

/-- `n` little-endian bytes of `v`. -/
def leBytes : Nat → Nat → List Nat
  | 0, _ => []
  | n + 1, v => (v % 256) :: leBytes n (v / 256)

/-- MD5 padding: `0x80`, zeros to 56 mod 64, 64-bit little-endian bit
length. -/
def padMsg (msg : List Nat) : List Nat :=
  let len := msg.length
  let z := (120 - ((len + 1) % 64)) % 64
  msg ++ [128] ++ List.replicate z 0 ++ leBytes 8 ((len * 8) % 18446744073709551616)

/-- The sixteen little-endian 32-bit words of one 64-byte chunk. -/
def wordsOf (chunk : List Nat) : List Nat :=
  (List.range 16).map (fun i =>
    chunk.getD (4 * i) 0 + 256 * chunk.getD (4 * i + 1) 0 +
    65536 * chunk.getD (4 * i + 2) 0 + 16777216 * chunk.getD (4 * i + 3) 0)

/-- One of the 64 MD5 operations; the complement `~x` of a word below
`2^32` is `4294967295 - x`. -/
def md5Round (M : List Nat) (st : Nat × Nat × Nat × Nat) (i : Nat) : Nat × Nat × Nat × Nat :=
  let A := st.1
  let B := st.2.1
  let C := st.2.2.1
  let D := st.2.2.2
  let F :=
    if i < 16 then (B &&& C) ||| ((4294967295 - B) &&& D)
    else if i < 32 then (D &&& B) ||| ((4294967295 - D) &&& C)
    else if i < 48 then B ^^^ C ^^^ D
    else C ^^^ (B ||| (4294967295 - D))
  let g :=
    if i < 16 then i
    else if i < 32 then (5 * i + 1) % 16
    else if i < 48 then (3 * i + 5) % 16
    else (7 * i) % 16
  let tmp := (A + F + md5K.getD i 0 + M.getD g 0) % 4294967296
  let nB := (B + rotl32 tmp (md5S.getD i 0)) % 4294967296
  (D, nB, B, C)

def md5Chunk (st : Nat × Nat × Nat × Nat) (chunk : List Nat) : Nat × Nat × Nat × Nat :=
  let r := (List.range 64).foldl (md5Round (wordsOf chunk)) st
  ((st.1 + r.1) % 4294967296, (st.2.1 + r.2.1) % 4294967296,
   (st.2.2.1 + r.2.2.1) % 4294967296, (st.2.2.2 + r.2.2.2) % 4294967296)

def chunksGo : Nat → List Nat → List (List Nat)
  | 0, _ => []
  | n + 1, l => l.take 64 :: chunksGo n (l.drop 64)

/-- The 16 digest bytes of MD5. -/
def md5Bytes (msg : List Nat) : List Nat :=
  let padded := padMsg msg
  let fin := (chunksGo (padded.length / 64) padded).foldl md5Chunk
    (0x67452301, 0xefcdab89, 0x98badcfe, 0x10325476)
  leBytes 4 fin.1 ++ leBytes 4 fin.2.1 ++ leBytes 4 fin.2.2.1 ++ leBytes 4 fin.2.2.2

def hexChar (n : Nat) : Char := if n < 10 then Char.ofNat (48 + n) else Char.ofNat (87 + n)

/-- `hashlib.md5(...).hexdigest()`. -/
def md5hex (msg : List Nat) : String :=
  ⟨((md5Bytes msg).map (fun b => [hexChar (b / 16), hexChar (b % 16)])).flatten⟩

/-- UTF-8 encoding of one character. -/
def utf8Char (c : Char) : List Nat :=
  let n := c.toNat
  if n < 128 then [n]
  else if n < 2048 then [192 + n / 64, 128 + n % 64]
  else if n < 65536 then [224 + n / 4096, 128 + (n / 64) % 64, 128 + n % 64]
  else [240 + n / 262144, 128 + (n / 4096) % 64, 128 + (n / 64) % 64, 128 + n % 64]

/-- `s.encode("utf-8")`. -/
def utf8Bytes (s : String) : List Nat := (s.data.map utf8Char).flatten

set_option maxRecDepth 40000 in
/-- Well-known RFC 1321 test vectors, pinning the MD5 embedding. -/
theorem md5hex_test_vectors :
    md5hex (utf8Bytes "") = "d41d8cd98f00b204e9800998ecf8427e" ∧
    md5hex (utf8Bytes "abc") = "900150983cd24fb0d6963f7d28e17f72" := by
  constructor <;> decide

/-- `decide_stable_id` of request_to_pending.py lines 221-237: the known
dictionary is the insertion-ordered list of `(canonical_id, aliases)`
pairs; the first alias matching under `norm_key` wins; otherwise the
ASCII slug, falling back to `"app-"` plus the first 12 hex digits of the
MD5 of the raw name's UTF-8 bytes. -/
def decide_stable_id (app_name : String) (known : List (String × List String)) : String :=
  match known.find? (fun p => p.2.any (fun al => norm_key al == norm_key app_name)) with
  | some p => p.1
  | none =>
    let sl := slugify_ascii app_name
    if sl = "" then "app-" ++ ⟨(md5hex (utf8Bytes app_name)).data.take 12⟩ else sl

/-- The value of `slug` before its `or "app"` fallback. -/
def slugBody (s : String) : String :=
  ⟨(collapseSepChars (pyLower (pyStrip ⟨s.data.filter slugKeep⟩)).data).take 64⟩

theorem slug_eq (s : String) :
    slug s = if slugBody s = "" then "app" else slugBody s := rfl

/-- C5 counterexample: in the merge engine, the synthesized id is not a
function of the name at all when the name is unusable — two id-less
records with the same (empty) name but different webHosts receive
different ids (taken from the first host), and a name with no
representable characters receives the constant `"app"`, not a
marker-prefixed digest of the name. -/
theorem C5_counterexample :
    (normalize_app { webHosts := PyList.items [some "a.com"] } "us").id = "acom" ∧
    (normalize_app { webHosts := PyList.items [some "b.com"] } "us").id = "bcom" ∧
    (normalize_app { webHosts := PyList.items [some "a.com"] } "us").name =
      (normalize_app { webHosts := PyList.items [some "b.com"] } "us").name ∧
    (normalize_app { webHosts := PyList.items [some "a.com"] } "us").id ≠
      (normalize_app { webHosts := PyList.items [some "b.com"] } "us").id ∧
    (normalize_app { name := "!!!" } "us").id = "app" := by
  decide

/-- C5 amended: id synthesis is deterministic, but the digest fallback
exists only in the intake script.  In the merge engine, a record lacking
an id takes `slug` of its name when the name is usable, and `slug`'s
empty-body fallback is the constant `"app"`.  In `decide_stable_id`, a
name matching no known alias takes its ASCII slug, falling back to
`"app-"` plus the first 12 hex digits of `md5` of the raw name's UTF-8
bytes when the slug is empty. -/
theorem C5_id_synthesis :
    (∀ s, slugBody s = "" → slug s = "app") ∧
    (∀ (a : RawApp) (cc : String), pyStrip a.id = "" → pyStrip a.name ≠ "" →
      (normalize_app a cc).id = slug (pyStrip a.name)) ∧
    (∀ (nm : String) (known : List (String × List String)),
      (∀ p ∈ known, ∀ al ∈ p.2, norm_key al ≠ norm_key nm) →
      slugify_ascii nm = "" →
      decide_stable_id nm known = "app-" ++ ⟨(md5hex (utf8Bytes nm)).data.take 12⟩) := by
  refine ⟨fun s h => ?_, fun a cc hid hname => ?_, fun nm known hk hsl => ?_⟩
  · rw [slug_eq, if_pos h]
  · rw [normalize_app_id, if_pos hid, if_pos hname]
  · have hfind : known.find?
        (fun p => p.2.any (fun al => norm_key al == norm_key nm)) = none := by
      rw [List.find?_eq_none]
      intro p hp
      intro hc
      obtain ⟨al, hal, heq⟩ := List.any_eq_true.mp hc
      exact hk p hp al hal (beq_iff_eq.mp heq)
    unfold decide_stable_id
    rw [hfind]
    dsimp only
    rw [if_pos hsl]

set_option maxRecDepth 40000 in
/-- C5 witness: the unusable name `"!!!"` hits the constant fallback, a
usable name takes its slug, and a non-ASCII name in the intake script
takes the md5 fallback evaluated concretely. -/
theorem C5_id_synthesis_witness :
    slug "!!!" = "app" ∧
    (normalize_app { name := "My App" } "us").id = slug (pyStrip "My App") ∧
    decide_stable_id "日本" [] = "app-" ++ ⟨(md5hex (utf8Bytes "日本")).data.take 12⟩ ∧
    decide_stable_id "日本" [] = "app-4dbed2e65745" := by
  refine ⟨C5_id_synthesis.1 "!!!" (by decide),
    C5_id_synthesis.2.1 { name := "My App" } "us" (by decide) (by decide),
    C5_id_synthesis.2.2 "日本" [] (fun p hp => absurd hp (List.not_mem_nil p)) (by decide),
    by decide⟩
